import Mathlib

/-!
# NextGenPrimitives: commitments, index codec, challenges, polynomial factors

A shallow embedding of `src/nextgen/NextGenPrimitives.hpp`.

* `Exponent` is a commutative ring `K` (the scalar field of the curve), `GroupElement`
  an additive commutative group `G` that is a `K`-module; the C++ `g * m` is `m • g`.
* `uint64_t` values are natural numbers.  The operations applied to them (`%`, `/`,
  `!=`, `++` on a digit counter) cannot leave the 64-bit range, so no reduction is needed.
* The variables `rem`, `i` and `k` that `convert_to_sigma` declares as `int` are 32-bit
  two's complement values, represented by their bit patterns: `rem = num % n` keeps the
  low 32 bits, `++` wraps from `INT_MAX` to `INT_MIN`, and a comparison with a `uint64_t`
  converts the `int` by sign extension.  The counter `j` of the digit loops counts the
  iterations, at most 64 for a 64-bit `num`.
* The `int` index of the loops of `new_factor` and of `get_x(proofs)` runs over the
  positions of a vector and is a natural number (vectors of fewer than `2^31` entries).
* A `while` loop takes a `fuel` argument bounding the number of times its body is
  entered; a run that would need more ends in `Fault.outOfFuel`.
-/

namespace nextgen

/-- Ways in which a run of a digit loop fails to return a value. -/
inductive Fault where
  /-- The body evaluated `num % n` with `n = 0`. -/
  | divByZero
  /-- The loop condition still held when the fuel was used up. -/
  | outOfFuel
deriving DecidableEq, Repr

/-! ### The type `int` -/

/-- The largest value of type `int`, `2^31 - 1`. -/
def INT_MAX : Nat := 2147483647

/-- The conversion of a `uint64_t` to `int` (as in `rem = num % n`): the low 32 bits.
An `int` is represented by its bit pattern, a natural number below `2^32`; the patterns
from `2^31` on are the negative values. -/
def to_int (x : Nat) : Nat := x % 4294967296

/-- `++i` on an `int`, wrapping from `INT_MAX` to `INT_MIN` (two's complement
wrap-around; the C++ standard leaves this overflow undefined). -/
def int_incr (i : Nat) : Nat := (i + 1) % 4294967296

/-- The conversion of an `int` to `uint64_t` made by a comparison `i < n` with a
`uint64_t` operand: a negative `i` becomes `2^64 + i`, that is its pattern plus
`2^64 - 2^32`. -/
def int_to_uint64 (i : Nat) : Nat :=
  if i < 2147483648 then i else 18446744069414584320 + i

/-- `for (int i = i0; i < bound; ++i) s = step i s`, with `bound` a `uint64_t`; the first
argument counts the iterations still allowed.  The callers pass `2^32`: the counter
reaches `-1`, which converts to `2^64 - 1` and ends the loop, before that many steps. -/
def int_for {σ : Type} (bound : Nat) (step : Nat → σ → σ) : Nat → Nat → σ → σ
  | 0, _, s => s
  | fuel + 1, i, s =>
    if int_to_uint64 i < bound then int_for bound step fuel (int_incr i) (step i s) else s

section IndexCodec

variable {K : Type} [Zero K] [One K]

/-- The inner loop of the `while` body of `convert_to_sigma`:
`for(int i = 0; i < n; ++i) out.push_back(i == rem ? 1 : 0)`.  The argument `rem` is the
`uint64_t` value `num % n`, which the assignment to `int rem` narrows. -/
def push_digit_block (rem n : Nat) (out : List K) : List K :=
  int_for n (fun i o => if i = to_int rem then o ++ [1] else o ++ [0]) 4294967296 0 out

/-- The body of the padding loop of `convert_to_sigma`:
`out.push_back(1); for(int i = 1; i < n; ++i) out.push_back(0);`.
The leading `1` is pushed whatever `n` is. -/
def push_pad_block (n : Nat) (out : List K) : List K :=
  int_for n (fun _ o => o ++ [0]) 4294967296 1 (out ++ [1])

/-- The `while (num != 0)` loop of `convert_to_sigma`, returning the output vector and
the block counter `j` (the number of iterations made, at most 64 for a 64-bit `num`). -/
def sigma_while (n : Nat) : Nat → Nat → List K → Nat → Except Fault (List K × Nat)
  | 0, num, out, j => if num = 0 then .ok (out, j) else .error .outOfFuel
  | fuel + 1, num, out, j =>
    if num = 0 then .ok (out, j)
    else if n = 0 then .error .divByZero
    else sigma_while n fuel (num / n) (push_digit_block (num % n) n out) (j + 1)

/-- `convert_to_sigma(num, n, m, out)`: the digit loop, then
`for(int k = j; k < m; ++k)` pushing one padding block per missing digit.
The result is the final content of `out`. -/
def convert_to_sigma (fuel num n m : Nat) (out : List K) : Except Fault (List K) :=
  match sigma_while n fuel num out 0 with
  | .error e => .error e
  | .ok (out1, j) =>
    .ok (int_for m (fun _ o => push_pad_block n o) 4294967296 (to_int j) out1)

/-- The `while (num != 0)` loop of `convert_to_nal`, returning `result` and `j`. -/
def nal_while (n : Nat) : Nat → Nat → List Nat → Nat → Except Fault (List Nat × Nat)
  | 0, num, result, j => if num = 0 then .ok (result, j) else .error .outOfFuel
  | fuel + 1, num, result, j =>
    if num = 0 then .ok (result, j)
    else if n = 0 then .error .divByZero
    else nal_while n fuel (num / n) (result ++ [num % n]) (j + 1)

/-- `std::vector<uint64_t>::resize(m)`: cut to `m` entries, or fill up with zeros. -/
def resize (v : List Nat) (m : Nat) : List Nat :=
  v.take m ++ List.replicate (m - v.length) 0

/-- `convert_to_nal(num, n, m)`: the digit loop followed by `result.resize(m)`. -/
def convert_to_nal (fuel num n m : Nat) : Except Fault (List Nat) :=
  match nal_while n fuel num [] 0 with
  | .error e => .error e
  | .ok (result, _) => .ok (resize result m)

end IndexCodec

/-! ### Reference notions used to state the index-codec properties -/

section IndexCodecReference

variable {K : Type} [Zero K] [One K]

/-- The one-hot block selecting digit `d` among `n` positions: entry `i` is `1` if
`i = d` and `0` otherwise. -/
def oneHot (n d : Nat) : List K :=
  (List.range n).map (fun i => if i = d then 1 else 0)

/-- The base-`n` digits of `index`, least significant first, filled up with zeros to
`m` entries. -/
def paddedDigits (n m index : Nat) : List Nat :=
  Nat.digits n index ++ List.replicate (m - (Nat.digits n index).length) 0

end IndexCodecReference

/-! ### Commitments -/

section Commitments

variable {K G : Type} [CommRing K] [AddCommGroup G] [Module K G]

/-- Modelled from the spec: `GeneratorVector::get_vector_multiple`, whose class is not
part of the sources at hand.  It "adds Σ exponent_i·generator_i into an accumulator";
`h` is the generator vector, `exp` the exponents, `acc` the accumulator on entry. -/
def get_vector_multiple (h : List G) (exp : List K) (acc : G) : G :=
  acc + (List.zipWith (fun hi ei => ei • hi) h exp).sum

/-- The vector overload `commit(g, h, exp, r, result_out)`:
`result_out += g * r; h.get_vector_multiple(exp, result_out);`.
The value returned is the content of `result_out` on exit. -/
def commit_vector (g : G) (h : List G) (exp : List K) (r : K) (result_out : G) : G :=
  get_vector_multiple h exp (result_out + r • g)

/-- The overload `commit(g, m, h, r)`: `return g * m + h * r;`. -/
def commit (g : G) (m : K) (h : G) (r : K) : G :=
  m • g + r • h

/-- `double_commit(g, m, hV, v, hR, r)`: a default-constructed `GroupElement` (the
identity, `0`) to which `g * m`, `hV * v` and `hR * r` are added in turn. -/
def double_commit (g : G) (m : K) (hV : G) (v : K) (hR : G) (r : K) : G :=
  let result : G := 0
  let result := result + m • g
  let result := result + v • hV
  let result := result + r • hR
  result

end Commitments

/-! ### Challenges -/

/-- A byte (`unsigned char`). -/
abbrev Byte := Fin 256

/-- The operations of the scalar, group-element and hash libraries used by the challenge
functions; they are not part of the sources at hand and are taken as parameters. -/
structure ChallengeEnv (K G : Type) where
  /-- The bytes that `GroupElement::serialize` writes at the position it is given. -/
  serialize : G → List Byte
  /-- The value of `GroupElement::memoryRequired()`. -/
  memoryRequired : G → Nat
  /-- SHA-256 of a byte string (`secp256k1_sha256_initialize`, `_write`, `_finalize`). -/
  sha256 : List Byte → List Byte
  /-- The `Exponent` built from the digest buffer (`result_out = result_data`). -/
  ofBytes : List Byte → K

section Challenges

variable {K G : Type}

/-- `current = elem.serialize(current)` on the buffer `buf`, `pos` being the offset of
`current`: the bytes of `elem` overwrite `buf` from `pos` on and the offset advances by
their number.  Writing past the end of the buffer gives `none`. -/
def serialize_at (E : ChallengeEnv K G) (elem : G) (buf : List Byte) (pos : Nat) :
    Option (List Byte × Nat) :=
  let bytes := E.serialize elem
  if pos + bytes.length ≤ buf.length then
    some (buf.take pos ++ bytes ++ buf.drop (pos + bytes.length), pos + bytes.length)
  else none

/-- `secp256k1_sha256_write(&hash, data, len)` on a fresh hash state followed by
`secp256k1_sha256_finalize`: the digest of the first `len` bytes of the buffer.
Reading past the end of the buffer gives `none`. -/
def sha256_of_buffer (E : ChallengeEnv K G) (buf : List Byte) (len : Nat) :
    Option (List Byte) :=
  if len ≤ buf.length then some (E.sha256 (buf.take len)) else none

/-- `get_x(A, C, D, result_out)`.  The array `data[3 * A.memoryRequired()]` is not
initialised by the source: `junk` gives its content on entry.  The value returned is
`result_out` on exit. -/
def get_x (E : ChallengeEnv K G) (junk : Nat → Byte) (A C D : G) : Option K := do
  let data := (List.range (3 * E.memoryRequired A)).map junk
  let (data, current) ← serialize_at E A data 0
  let (data, current) ← serialize_at E C data current
  let (data, _) ← serialize_at E D data current
  let result_data ← sha256_of_buffer E data (3 * 34)
  pure (E.ofBytes result_data)

/-- The components of a `SigmaPlusProof` that the challenge functions read; the class is
declared outside the sources at hand. -/
structure SigmaPlusProof (G : Type) where
  /-- The member `A_`. -/
  A_ : G
  /-- The member `C_`. -/
  C_ : G
  /-- The member `D_`. -/
  D_ : G

/-- The body of the loop of `get_x(proofs, result_out)`: `A_`, `C_` and `D_` of
`proofs[i]` are serialized one after the other at `current`; `st` is the buffer and the
offset of `current`. -/
def serialize_proof (E : ChallengeEnv K G) (proof : SigmaPlusProof G)
    (st : List Byte × Nat) : Option (List Byte × Nat) := do
  let (data, current) ← serialize_at E proof.A_ st.1 st.2
  let (data, current) ← serialize_at E proof.C_ data current
  serialize_at E proof.D_ data current

/-- The overload `get_x(proofs, result_out)`: for a non-empty vector the array
`data[3 * proofs.size() * 34]` (content on entry given by `junk`) receives every proof's
elements in order and its first `3 * proofs.size() * 34` bytes are hashed; for an empty
vector `result_out = uint64_t(1)`.  The value returned is `result_out` on exit. -/
def get_x_proofs [One K] (E : ChallengeEnv K G) (junk : Nat → Byte)
    (proofs : List (SigmaPlusProof G)) : Option K :=
  if proofs.length > 0 then do
    let data := (List.range (3 * proofs.length * 34)).map junk
    let (data, _) ← proofs.foldlM (fun st proof => serialize_proof E proof st) (data, 0)
    let result_data ← sha256_of_buffer E data (3 * proofs.length * 34)
    pure (E.ofBytes result_data)
  else
    some 1

/-- A small instance of the library operations, for evaluating `get_x`: an element `g`
serializes to 34 copies of the byte `g mod 256`, the "digest" is its input and the
"scalar" of a byte string is its length. -/
def sampleEnv : ChallengeEnv Nat Nat where
  serialize := fun g => List.replicate 34 (Fin.ofNat g)
  memoryRequired := fun _ => 34
  sha256 := id
  ofBytes := List.length

end Challenges

/-! ### Polynomial factors -/

section PolynomialBuilder

variable {K : Type} [CommRing K]

end PolynomialBuilder

/-! ## The `int` loops -/

section IntLoops

/-- A counting loop whose counter stays non-negative: with `cnt` the first counter value
at which the test `i < bound` fails, the loop runs `step` for `i, …, cnt - 1`. -/
theorem int_for_run {σ : Type} (bound cnt : Nat) (step : Nat → σ → σ)
    (hc : cnt ≤ 2147483648) (hcb : cnt ≤ bound) (hexit : ¬ int_to_uint64 cnt < bound) :
    ∀ (fuel i : Nat) (s : σ), i ≤ cnt → cnt - i ≤ fuel →
      int_for bound step fuel i s
        = (List.range' i (cnt - i)).foldl (fun s i => step i s) s := by
  intro fuel
  induction fuel with
  | zero =>
    intro i s _ hf
    have e : cnt - i = 0 := by omega
    simp [int_for, e]
  | succ f ih =>
    intro i s hi hf
    by_cases hlt : i < cnt
    · have h1 : int_to_uint64 i < bound := by
        unfold int_to_uint64
        rw [if_pos (by omega)]
        omega
      have h2 : int_incr i = i + 1 := by
        unfold int_incr
        exact Nat.mod_eq_of_lt (by omega)
      obtain ⟨r, hr⟩ : ∃ r, cnt - i = r + 1 := ⟨cnt - i - 1, by omega⟩
      have hr' : cnt - (i + 1) = r := by omega
      simp only [int_for, h1, if_true, h2]
      rw [ih (i + 1) (step i s) (by omega) (by omega), hr, hr', List.range'_succ]
      rfl
    · have e : i = cnt := by omega
      subst e
      simp [int_for, hexit]

/-- A loop whose test fails at once leaves the state as it is. -/
theorem int_for_skip {σ : Type} (bound : Nat) (step : Nat → σ → σ) (fuel i : Nat) (s : σ)
    (hi : i < 2147483648) (hb : bound ≤ i) : int_for bound step fuel i s = s := by
  cases fuel with
  | zero => rfl
  | succ f =>
    have h : ¬ int_to_uint64 i < bound := by
      unfold int_to_uint64
      rw [if_pos hi]
      omega
    simp [int_for, h]

/-- A loop for a bound within the `int` range runs `step` for `i, …, bound - 1`. -/
theorem int_for_bounded {σ : Type} (bound : Nat) (step : Nat → σ → σ) (i : Nat) (s : σ)
    (hb : bound ≤ INT_MAX) (hi : i ≤ bound) :
    int_for bound step 4294967296 i s
      = (List.range' i (bound - i)).foldl (fun s i => step i s) s := by
  unfold INT_MAX at hb
  apply int_for_run bound bound step (by omega) (Nat.le_refl _) _ _ _ _ hi (by omega)
  unfold int_to_uint64
  rw [if_pos (by omega)]
  omega

/-- The `2^32` iterations the callers allow are never used up: for a 64-bit `bound` the
counter reaches `-1`, where the test fails, so more fuel changes nothing. -/
theorem int_for_fuel {σ : Type} (bound : Nat) (step : Nat → σ → σ)
    (hb : bound < 18446744073709551616) :
    ∀ (d i fuel1 fuel2 : Nat) (s : σ), i + d = 4294967295 → d < fuel1 → d < fuel2 →
      int_for bound step fuel1 i s = int_for bound step fuel2 i s := by
  intro d
  induction d with
  | zero =>
    intro i fuel1 fuel2 s hi h1 h2
    obtain ⟨f1, rfl⟩ : ∃ f, fuel1 = f + 1 := ⟨fuel1 - 1, by omega⟩
    obtain ⟨f2, rfl⟩ : ∃ f, fuel2 = f + 1 := ⟨fuel2 - 1, by omega⟩
    have hexit : ¬ int_to_uint64 i < bound := by
      unfold int_to_uint64
      rw [if_neg (by omega)]
      omega
    simp [int_for, hexit]
  | succ d ih =>
    intro i fuel1 fuel2 s hi h1 h2
    obtain ⟨f1, rfl⟩ : ∃ f, fuel1 = f + 1 := ⟨fuel1 - 1, by omega⟩
    obtain ⟨f2, rfl⟩ : ∃ f, fuel2 = f + 1 := ⟨fuel2 - 1, by omega⟩
    have hinc : int_incr i = i + 1 := by
      unfold int_incr
      exact Nat.mod_eq_of_lt (by omega)
    simp only [int_for, hinc]
    split
    · exact ih (i + 1) f1 f2 (step i s) (by omega) (by omega) (by omega)
    · rfl

theorem foldl_push_const {α : Type} (a : α) (l : List Nat) (o : List α) :
    l.foldl (fun o _ => o ++ [a]) o = o ++ List.replicate l.length a := by
  induction l generalizing o with
  | nil => simp
  | cons b t ih =>
    simp only [List.foldl_cons, List.length_cons]
    rw [ih, List.replicate_succ]
    simp

theorem foldl_push_block {α : Type} (block : List α) (l : List Nat) (out : List α) :
    l.foldl (fun o _ => o ++ block) out
      = out ++ (List.replicate l.length block).flatten := by
  induction l generalizing out with
  | nil => simp
  | cons b t ih =>
    simp only [List.foldl_cons, List.length_cons]
    rw [ih, List.replicate_succ]
    simp

end IntLoops

/-! ## Index codec: the digit loops -/

section IndexCodecLemmas

variable {K : Type} [Zero K] [One K]

theorem to_int_of_lt (x : Nat) (h : x < 4294967296) : to_int x = x :=
  Nat.mod_eq_of_lt h

theorem foldl_push_digit (r : Nat) (l : List Nat) (out : List K) :
    l.foldl (fun o i => if i = r then o ++ [1] else o ++ [0]) out
      = out ++ l.map (fun i => if i = r then 1 else 0) := by
  induction l generalizing out with
  | nil => simp
  | cons a t ih =>
    simp only [List.foldl_cons, List.map_cons]
    rw [ih]
    split <;> simp

/-- Within the `int` range the digit block is the one-hot block of `rem`. -/
theorem push_digit_block_eq (rem n : Nat) (out : List K) (hn : n ≤ INT_MAX)
    (hr : rem < 4294967296) :
    push_digit_block rem n out = out ++ oneHot n rem := by
  unfold push_digit_block
  rw [int_for_bounded n _ 0 out hn (Nat.zero_le _), to_int_of_lt rem hr, Nat.sub_zero,
    ← List.range_eq_range', foldl_push_digit]
  rfl

/-- Within the `int` range the padding block is `1` followed by `n - 1` zeros. -/
theorem push_pad_block_eq (n : Nat) (out : List K) (hn : n ≤ INT_MAX) :
    push_pad_block n out = out ++ (1 :: List.replicate (n - 1) 0) := by
  unfold push_pad_block
  by_cases h1 : 1 ≤ n
  · rw [int_for_bounded n _ 1 _ hn h1, foldl_push_const, List.length_range']
    simp
  · have h0 : n = 0 := by omega
    subst h0
    rw [int_for_skip 0 _ _ 1 _ (by omega) (by omega)]
    simp

/-- The padding loop for `m` within the `int` range, given what one padding block is. -/
theorem pad_loop_eq (n m j : Nat) (block out : List K) (hm : m ≤ INT_MAX)
    (hj : j < 2147483648) (hblock : ∀ o : List K, push_pad_block n o = o ++ block) :
    int_for m (fun _ o => push_pad_block n o) 4294967296 (to_int j) out
      = out ++ (List.replicate (m - j) block).flatten := by
  have hfun : (fun (_ : Nat) (o : List K) => push_pad_block n o)
      = (fun _ o => o ++ block) := by
    funext _ o
    exact hblock o
  rw [hfun, to_int_of_lt j (by omega)]
  by_cases hjm : j ≤ m
  · rw [int_for_bounded m _ j out hm hjm, foldl_push_block, List.length_range']
  · rw [int_for_skip m _ _ j out hj (by omega)]
    have e : m - j = 0 := by omega
    simp [e]

theorem oneHot_zero_eq (n : Nat) (hn : 1 ≤ n) :
    (oneHot n 0 : List K) = 1 :: List.replicate (n - 1) 0 := by
  unfold oneHot
  obtain ⟨k, rfl⟩ : ∃ k, n = k + 1 := ⟨n - 1, by omega⟩
  rw [List.range_succ_eq_map]
  simp only [List.map_cons, if_true, List.map_map, Nat.add_sub_cancel]
  congr 1
  rw [List.eq_replicate_iff]
  simp

theorem nal_while_zero (n fuel : Nat) (result : List Nat) (j : Nat) :
    nal_while n fuel 0 result j = .ok (result, j) := by
  cases fuel <;> simp [nal_while]

theorem sigma_while_zero (n fuel : Nat) (out : List K) (j : Nat) :
    sigma_while n fuel 0 out j = .ok (out, j) := by
  cases fuel <;> simp [sigma_while]

theorem nal_while_digits (n : Nat) (hn : 2 ≤ n) :
    ∀ (fuel num : Nat) (result : List Nat) (j : Nat),
      (Nat.digits n num).length ≤ fuel →
      nal_while n fuel num result j
        = .ok (result ++ Nat.digits n num, j + (Nat.digits n num).length) := by
  intro fuel
  induction fuel with
  | zero =>
    intro num result j h
    have h0 : num = 0 := by
      rw [← Nat.digits_eq_nil_iff_eq_zero (b := n)]
      exact List.length_eq_zero.mp (Nat.le_zero.mp h)
    subst h0
    simp [nal_while]
  | succ f ih =>
    intro num result j h
    by_cases h0 : num = 0
    · subst h0; simp [nal_while]
    · have hd := Nat.digits_def' (show 1 < n by omega) (Nat.pos_of_ne_zero h0)
      rw [hd] at h ⊢
      simp only [List.length_cons, Nat.add_le_add_iff_right] at h
      have hn0 : n ≠ 0 := by omega
      simp only [nal_while, h0, hn0, if_false]
      rw [ih _ _ _ h]
      simp [Nat.add_assoc, Nat.add_comm 1]

/-- Within the `int` range the digit loop appends the one-hot block of every digit. -/
theorem sigma_while_digits (n : Nat) (hn : 2 ≤ n) (hmax : n ≤ INT_MAX) :
    ∀ (fuel num : Nat) (out : List K) (j : Nat),
      (Nat.digits n num).length ≤ fuel →
      sigma_while n fuel num out j
        = .ok (out ++ (Nat.digits n num).flatMap (oneHot n),
               j + (Nat.digits n num).length) := by
  intro fuel
  induction fuel with
  | zero =>
    intro num out j h
    have h0 : num = 0 := by
      rw [← Nat.digits_eq_nil_iff_eq_zero (b := n)]
      exact List.length_eq_zero.mp (Nat.le_zero.mp h)
    subst h0
    simp [sigma_while]
  | succ f ih =>
    intro num out j h
    by_cases h0 : num = 0
    · subst h0; simp [sigma_while]
    · have hd := Nat.digits_def' (show 1 < n by omega) (Nat.pos_of_ne_zero h0)
      rw [hd] at h ⊢
      simp only [List.length_cons, Nat.add_le_add_iff_right] at h
      have hn0 : n ≠ 0 := by omega
      simp only [sigma_while, h0, hn0, if_false]
      rw [ih _ _ _ h, push_digit_block_eq _ n _ hmax (by
        have := Nat.mod_lt num (show 0 < n by omega)
        unfold INT_MAX at hmax
        omega)]
      simp [Nat.add_assoc, Nat.add_comm 1]

/-- The digit loop ends after one iteration per digit, whatever the blocks hold. -/
theorem sigma_while_count (n : Nat) (hn : 2 ≤ n) :
    ∀ (fuel num : Nat) (out : List K) (j : Nat),
      (Nat.digits n num).length ≤ fuel →
      ∃ o : List K, sigma_while n fuel num out j
        = .ok (o, j + (Nat.digits n num).length) := by
  intro fuel
  induction fuel with
  | zero =>
    intro num out j h
    have h0 : num = 0 := by
      rw [← Nat.digits_eq_nil_iff_eq_zero (b := n)]
      exact List.length_eq_zero.mp (Nat.le_zero.mp h)
    subst h0
    exact ⟨out, by simp [sigma_while]⟩
  | succ f ih =>
    intro num out j h
    by_cases h0 : num = 0
    · subst h0
      exact ⟨out, by simp [sigma_while]⟩
    · have hd := Nat.digits_def' (show 1 < n by omega) (Nat.pos_of_ne_zero h0)
      rw [hd] at h ⊢
      simp only [List.length_cons, Nat.add_le_add_iff_right] at h
      have hn0 : n ≠ 0 := by omega
      obtain ⟨o, ho⟩ := ih (num / n) (push_digit_block (num % n) n out) (j + 1) h
      refine ⟨o, ?_⟩
      simp only [sigma_while, h0, hn0, if_false, ho, List.length_cons]
      simp [Nat.add_assoc, Nat.add_comm 1]

/-- For `2 ≤ n`, an index below `n ^ m` has at most `m` base-`n` digits. -/
theorem digits_length_le_of_lt_pow (n m index : Nat) (hn : 2 ≤ n) (h : index < n ^ m) :
    (Nat.digits n index).length ≤ m := by
  by_cases h0 : index = 0
  · subst h0; simp
  · have h1 := Nat.base_pow_length_digits_le n index (by omega) h0
    have h2 : n ^ (Nat.digits n index).length < n ^ (m + 1) := by
      calc n ^ (Nat.digits n index).length ≤ n * index := h1
        _ < n * n ^ m := Nat.mul_lt_mul_of_pos_left h (by omega)
        _ = n ^ (m + 1) := by rw [pow_succ, Nat.mul_comm]
    have h3 := (Nat.pow_lt_pow_iff_right (show 1 < n by omega)).mp h2
    omega

/-- An index below `n ^ m` forces `index = 0` when `n ≤ 1`. -/
theorem index_eq_zero_of_lt_pow (n m index : Nat) (hn : n ≤ 1) (h : index < n ^ m) :
    index = 0 := by
  have h1 : n ^ m ≤ 1 := by
    interval_cases n
    · cases m <;> simp
    · simp
  omega

theorem digits_length_le (n m index : Nat) (h : index < n ^ m) :
    (Nat.digits n index).length ≤ m := by
  by_cases hn : 2 ≤ n
  · exact digits_length_le_of_lt_pow n m index hn h
  · have h0 := index_eq_zero_of_lt_pow n m index (by omega) h
    subst h0
    simp

theorem paddedDigits_length (n m index : Nat) (h : index < n ^ m) :
    (paddedDigits n m index).length = m := by
  have := digits_length_le n m index h
  simp [paddedDigits]
  omega

/-- Under the bound `index < n ^ m`, `m` units of fuel are enough for `convert_to_nal`,
which returns the zero-padded digits. -/
theorem convert_to_nal_of_lt_pow (fuel index n m : Nat) (h : index < n ^ m)
    (hf : m ≤ fuel) : convert_to_nal fuel index n m = .ok (paddedDigits n m index) := by
  have hlen := digits_length_le n m index h
  have hw : nal_while n fuel index [] 0
      = .ok (Nat.digits n index, (Nat.digits n index).length) := by
    by_cases hn : 2 ≤ n
    · simpa using nal_while_digits n hn fuel index [] 0 (by omega)
    · have h0 := index_eq_zero_of_lt_pow n m index (by omega) h
      subst h0
      simp [nal_while_zero]
  simp only [convert_to_nal, hw, resize, paddedDigits]
  rw [List.take_of_length_le hlen]

/-- Under the bound `index < n ^ m` and for `n`, `m` within the `int` range, `m` units of
fuel are enough for `convert_to_sigma`, which appends the one-hot blocks of the
zero-padded digits. -/
theorem convert_to_sigma_of_lt_pow (fuel index n m : Nat) (out : List K)
    (h : index < n ^ m) (hf : m ≤ fuel) (hn : n ≤ INT_MAX) (hm : m ≤ INT_MAX) :
    convert_to_sigma fuel index n m out
      = .ok (out ++ (paddedDigits n m index).flatMap (oneHot n)) := by
  have hlen := digits_length_le n m index h
  have hw : sigma_while n fuel index out 0
      = .ok (out ++ (Nat.digits n index).flatMap (oneHot n),
             (Nat.digits n index).length) := by
    by_cases hn2 : 2 ≤ n
    · simpa using sigma_while_digits n hn2 hn fuel index out 0 (by omega)
    · have h0 := index_eq_zero_of_lt_pow n m index (by omega) h
      subst h0
      simp [sigma_while_zero]
  have hj : (Nat.digits n index).length < 2147483648 := by
    unfold INT_MAX at hm
    omega
  simp only [convert_to_sigma, hw]
  rw [pad_loop_eq n m _ _ _ hm hj (fun o => push_pad_block_eq n o hn)]
  simp only [paddedDigits]
  by_cases hm0 : m - (Nat.digits n index).length = 0
  · simp [hm0]
  · have hn1 : 1 ≤ n := by
      rcases Nat.eq_zero_or_pos n with rfl | hpos
      · exfalso
        have hm1 : m ≠ 0 := by omega
        rw [Nat.zero_pow (Nat.pos_of_ne_zero hm1)] at h
        omega
      · exact hpos
    rw [← oneHot_zero_eq n hn1]
    simp [List.flatMap_append, List.flatMap, List.map_replicate]

theorem oneHot_length (n d : Nat) : (oneHot n d : List K).length = n := by
  simp [oneHot]

theorem oneHot_getElem? (n d i : Nat) (hi : i < n) :
    (oneHot n d : List K)[i]? = some (if i = d then 1 else 0) := by
  simp [oneHot, List.getElem?_map, List.getElem?_range hi]

theorem flatMap_oneHot_length (n : Nat) (dl : List Nat) :
    (dl.flatMap (oneHot n) : List K).length = n * dl.length := by
  induction dl with
  | nil => simp
  | cons d t ih =>
    simp only [List.flatMap_cons, List.length_append, oneHot_length, ih, List.length_cons]
    rw [Nat.mul_succ, Nat.add_comm]

theorem flatMap_oneHot_getElem? (n : Nat) (dl : List Nat) :
    ∀ k i, k < dl.length → i < n →
      (dl.flatMap (oneHot n) : List K)[k * n + i]?
        = some (if i = dl.getD k 0 then 1 else 0) := by
  induction dl with
  | nil => intro k i hk; simp at hk
  | cons d t ih =>
    intro k i hk hi
    rw [List.flatMap_cons]
    cases k with
    | zero =>
      rw [List.getElem?_append_left (by simpa [oneHot_length] using hi)]
      simpa using oneHot_getElem? n d i hi
    | succ k =>
      have hk1 : k < t.length := by simpa using hk
      rw [List.getElem?_append_right (by
        rw [oneHot_length, Nat.succ_mul]; omega)]
      have e : (k + 1) * n + i - (oneHot n d : List K).length = k * n + i := by
        rw [oneHot_length, Nat.succ_mul]; omega
      rw [e, ih k i hk1 hi]
      simp

theorem flatMap_oneHot_block (n : Nat) (dl : List Nat) :
    ∀ k, k < dl.length →
      ((dl.flatMap (oneHot n) : List K).drop (k * n)).take n = oneHot n (dl.getD k 0) := by
  induction dl with
  | nil => intro k hk; simp at hk
  | cons d t ih =>
    intro k hk
    rw [List.flatMap_cons]
    cases k with
    | zero =>
      simp only [Nat.zero_mul, List.drop_zero]
      rw [List.take_left' (oneHot_length n d)]
      simp
    | succ k =>
      have hk1 : k < t.length := by simpa using hk
      have e : (k + 1) * n = (oneHot n d : List K).length + k * n := by
        rw [oneHot_length, Nat.succ_mul, Nat.add_comm]
      rw [e, List.drop_append, ih k hk1]
      simp

end IndexCodecLemmas

section IndexCodecDecode

variable {K : Type} [Zero K] [One K] [DecidableEq K]

end IndexCodecDecode

section IndexCodecCount

variable {K : Type} [CommRing K] [Nontrivial K] [DecidableEq K]

end IndexCodecCount

section DigitSums

theorem ofDigits_replicate_zero (n r : Nat) : Nat.ofDigits n (List.replicate r 0) = 0 := by
  induction r with
  | zero => simp
  | succ r ih => simp [List.replicate_succ, Nat.ofDigits_cons, ih]

theorem sum_getD_eq_ofDigits (n : Nat) (L : List Nat) :
    ∑ k in Finset.range L.length, L.getD k 0 * n ^ k = Nat.ofDigits n L := by
  induction L with
  | nil => simp
  | cons a t ih =>
    rw [List.length_cons, Finset.sum_range_succ', Nat.ofDigits_cons, ← ih, Finset.mul_sum]
    simp only [List.getD_cons_succ, List.getD_cons_zero, pow_zero, Nat.mul_one]
    rw [Nat.add_comm]
    congr 1
    apply Finset.sum_congr rfl
    intro k _
    rw [pow_succ]
    ring

theorem ofDigits_paddedDigits (n m index : Nat) :
    Nat.ofDigits n (paddedDigits n m index) = index := by
  rw [paddedDigits, Nat.ofDigits_append, ofDigits_replicate_zero, Nat.ofDigits_digits]
  simp

end DigitSums

/-! ## Index codec: the claims -/

section IndexCodecNarrowing

variable {K : Type} [Zero K] [One K]

end IndexCodecNarrowing

section IndexCodecClaims

variable {K : Type} [CommRing K] [Nontrivial K] [DecidableEq K]

/-- C3: for `index < n ^ m`, the digits `d = convert_to_nal(index, n, m)` (returned with
`m` units of loop fuel or more, `m` of them) reconstruct the index, least significant
digit first: the sum over `k = 0..m-1` of `d[k] * n ^ k` equals `index`. -/
theorem convert_to_nal_reconstructs_index (index n m fuel : Nat) (h : index < n ^ m)
    (hf : m ≤ fuel) :
    ∃ d : List Nat, convert_to_nal fuel index n m = .ok d ∧ d.length = m ∧
      ∑ k in Finset.range m, d.getD k 0 * n ^ k = index := by
  have hlen := paddedDigits_length n m index h
  refine ⟨paddedDigits n m index, convert_to_nal_of_lt_pow fuel index n m h hf, hlen, ?_⟩
  have hs := sum_getD_eq_ofDigits n (paddedDigits n m index)
  rw [hlen] at hs
  rw [hs, ofDigits_paddedDigits]

theorem convert_to_nal_reconstructs_index_witness :
    (5 < 2 ^ 3 ∧ 3 ≤ 3) ∧
    ∃ d : List Nat, convert_to_nal 3 5 2 3 = .ok d ∧ d.length = 3 ∧
      ∑ k in Finset.range 3, d.getD k 0 * 2 ^ k = 5 :=
  ⟨⟨by decide, by decide⟩, convert_to_nal_reconstructs_index 5 2 3 3 (by decide) (by decide)⟩

end IndexCodecClaims

/-! ## Index codec: runs without the bound `index < n ^ m` -/

section IndexCodecGeneral

variable {K : Type} [Zero K] [One K]

theorem resize_length (v : List Nat) (m : Nat) : (resize v m).length = m := by
  simp only [resize, List.length_append, List.length_take, List.length_replicate]
  omega

theorem resize_getD (v : List Nat) (m k : Nat) (hk : k < m) :
    (resize v m).getD k 0 = v.getD k 0 := by
  simp only [resize, List.getD_eq_getElem?_getD]
  by_cases hv : k < v.length
  · rw [List.getElem?_append_left (by simp; omega), List.getElem?_take_of_lt hk]
  · have hle : v.length ≤ k := Nat.le_of_not_lt hv
    rw [List.getElem?_append_right (by simp; omega), List.getElem?_replicate,
      List.getElem?_eq_none hle]
    split <;> rfl

theorem resize_getElem? (v : List Nat) (m k : Nat) (hk : k < m) :
    (resize v m)[k]? = some (v.getD k 0) := by
  rw [← resize_getD v m k hk, List.getD_eq_getElem?_getD,
    List.getElem?_eq_getElem (by rw [resize_length]; exact hk)]
  rfl

/-- Digit `k` of the base-`n` expansion is `index / n ^ k % n`. -/
theorem digits_getD (n : Nat) (hn : 2 ≤ n) :
    ∀ k num, (Nat.digits n num).getD k 0 = num / n ^ k % n := by
  intro k
  induction k with
  | zero =>
    intro num
    by_cases h0 : num = 0
    · subst h0; simp
    · rw [Nat.digits_def' (by omega) (Nat.pos_of_ne_zero h0)]
      simp
  | succ k ih =>
    intro num
    by_cases h0 : num = 0
    · subst h0; simp
    · rw [Nat.digits_def' (by omega) (Nat.pos_of_ne_zero h0), List.getD_cons_succ, ih,
        Nat.div_div_eq_div_mul, pow_succ, Nat.mul_comm]

/-- A fuel with `index < n ^ fuel` covers all the digits of `index`. -/
theorem digits_length_le_fuel (n fuel index : Nat) (hn : 2 ≤ n) (hf : index < n ^ fuel) :
    (Nat.digits n index).length ≤ fuel :=
  digits_length_le_of_lt_pow n fuel index hn hf

theorem lt_digits_length_of_pow_le (n m index : Nat) (hn : 2 ≤ n) (h : n ^ m ≤ index) :
    m < (Nat.digits n index).length := by
  have h1 : index < n ^ (Nat.digits n index).length :=
    Nat.lt_base_pow_length_digits (by omega)
  exact (Nat.pow_lt_pow_iff_right (show 1 < n by omega)).mp (Nat.lt_of_le_of_lt h h1)

/-- With fewer units of fuel than `num` has digits the loop of `convert_to_nal` is cut off. -/
theorem nal_while_short (n : Nat) (hn : 2 ≤ n) :
    ∀ (fuel num : Nat) (result : List Nat) (j : Nat),
      fuel < (Nat.digits n num).length →
      nal_while n fuel num result j = .error .outOfFuel := by
  intro fuel
  induction fuel with
  | zero =>
    intro num result j h
    have h0 : num ≠ 0 := by
      rintro rfl
      simp at h
    simp [nal_while, h0]
  | succ f ih =>
    intro num result j h
    have h0 : num ≠ 0 := by
      rintro rfl
      simp at h
    rw [Nat.digits_def' (by omega) (Nat.pos_of_ne_zero h0)] at h
    simp only [List.length_cons, Nat.add_lt_add_iff_right] at h
    have hn0 : n ≠ 0 := by omega
    simp only [nal_while, h0, hn0, if_false]
    exact ih _ _ _ h

/-- With fewer units of fuel than `num` has digits the loop of `convert_to_sigma` is cut
off. -/
theorem sigma_while_short (n : Nat) (hn : 2 ≤ n) :
    ∀ (fuel num : Nat) (out : List K) (j : Nat),
      fuel < (Nat.digits n num).length →
      sigma_while n fuel num out j = .error .outOfFuel := by
  intro fuel
  induction fuel with
  | zero =>
    intro num out j h
    have h0 : num ≠ 0 := by
      rintro rfl
      simp at h
    simp [sigma_while, h0]
  | succ f ih =>
    intro num out j h
    have h0 : num ≠ 0 := by
      rintro rfl
      simp at h
    rw [Nat.digits_def' (by omega) (Nat.pos_of_ne_zero h0)] at h
    simp only [List.length_cons, Nat.add_lt_add_iff_right] at h
    have hn0 : n ≠ 0 := by omega
    simp only [sigma_while, h0, hn0, if_false]
    exact ih _ _ _ h

/-- Base `1`: `num / 1 = num`, so a non-zero `num` never becomes zero. -/
theorem nal_while_base_one (fuel num : Nat) (result : List Nat) (j : Nat) (h : 0 < num) :
    nal_while 1 fuel num result j = .error .outOfFuel := by
  induction fuel generalizing result j with
  | zero => simp [nal_while, Nat.ne_of_gt h]
  | succ f ih => simp [nal_while, Nat.ne_of_gt h, ih]

theorem sigma_while_base_one (fuel num : Nat) (out : List K) (j : Nat) (h : 0 < num) :
    sigma_while 1 fuel num out j = .error .outOfFuel := by
  induction fuel generalizing out j with
  | zero => simp [sigma_while, Nat.ne_of_gt h]
  | succ f ih => simp [sigma_while, Nat.ne_of_gt h, ih]

/-- Base `0`: the first evaluation of `num % n` divides by zero. -/
theorem nal_while_base_zero (fuel num : Nat) (result : List Nat) (j : Nat) (h : 0 < num) :
    nal_while 0 (fuel + 1) num result j = .error .divByZero := by
  simp [nal_while, Nat.ne_of_gt h]

theorem sigma_while_base_zero (fuel num : Nat) (out : List K) (j : Nat) (h : 0 < num) :
    sigma_while 0 (fuel + 1) num out j = .error .divByZero := by
  simp [sigma_while, Nat.ne_of_gt h]

/-- The loop of `convert_to_nal` only appends remainders, which are below `n`. -/
theorem nal_while_lt (n : Nat) (hn : 1 ≤ n) :
    ∀ (fuel num : Nat) (result : List Nat) (j : Nat) (r : List Nat) (j1 : Nat),
      nal_while n fuel num result j = .ok (r, j1) →
      (∀ x ∈ result, x < n) → ∀ x ∈ r, x < n := by
  intro fuel
  induction fuel with
  | zero =>
    intro num result j r j1 h hres
    by_cases h0 : num = 0
    · simp only [nal_while, h0, if_true, Except.ok.injEq, Prod.mk.injEq] at h
      rw [← h.1]; exact hres
    · simp [nal_while, h0] at h
  | succ f ih =>
    intro num result j r j1 h hres
    by_cases h0 : num = 0
    · simp only [nal_while, h0, if_true, Except.ok.injEq, Prod.mk.injEq] at h
      rw [← h.1]; exact hres
    · have hn0 : n ≠ 0 := by omega
      simp only [nal_while, h0, hn0, if_false] at h
      refine ih _ _ _ r j1 h ?_
      intro x hx
      rcases List.mem_append.mp hx with hx | hx
      · exact hres x hx
      · rw [List.mem_singleton.mp hx]
        exact Nat.mod_lt _ (by omega)

/-- For a base `n ≥ 2` and enough fuel, `convert_to_nal` returns the digits of `index`
resized to `m` entries, whether or not `index < n ^ m`. -/
theorem convert_to_nal_of_two_le (fuel index n m : Nat) (hn : 2 ≤ n)
    (hf : index < n ^ fuel) :
    convert_to_nal fuel index n m = .ok (resize (Nat.digits n index) m) := by
  have hw := nal_while_digits n hn fuel index [] 0 (digits_length_le_fuel n fuel index hn hf)
  simp only [convert_to_nal, hw, List.nil_append]

/-- A 64-bit index has at most 64 digits in a base `n ≥ 2`. -/
theorem digits_length_le_64 (n index : Nat) (hn : 2 ≤ n) (hu : index < 2 ^ 64) :
    (Nat.digits n index).length ≤ 64 :=
  digits_length_le_of_lt_pow n 64 index hn
    (Nat.lt_of_lt_of_le hu (Nat.pow_le_pow_left hn 64))

/-- For a base `n ≥ 2` and enough fuel, `convert_to_sigma` returns a result. -/
theorem convert_to_sigma_returns (fuel index n m : Nat) (out : List K) (hn : 2 ≤ n)
    (hf : index < n ^ fuel) :
    ∃ r : List K, convert_to_sigma fuel index n m out = .ok r := by
  obtain ⟨o, ho⟩ := sigma_while_count n hn fuel index out 0
    (digits_length_le_fuel n fuel index hn hf)
  refine ⟨int_for m (fun _ o => push_pad_block n o) 4294967296
    (to_int (0 + (Nat.digits n index).length)) o, ?_⟩
  simp only [convert_to_sigma, ho]

/-- For a base `2 ≤ n ≤ INT_MAX` and a 64-bit `index ≥ n ^ m`, `convert_to_sigma`
appends one block per digit of `index` and no padding block. -/
theorem convert_to_sigma_of_pow_le (fuel index n m : Nat) (out : List K) (hn : 2 ≤ n)
    (h : n ^ m ≤ index) (hf : index < n ^ fuel) (hmax : n ≤ INT_MAX)
    (hu : index < 2 ^ 64) :
    convert_to_sigma fuel index n m out
      = .ok (out ++ (Nat.digits n index).flatMap (oneHot n)) := by
  have hw := sigma_while_digits n hn hmax fuel index out 0
    (digits_length_le_fuel n fuel index hn hf)
  have hL := lt_digits_length_of_pow_le n m index hn h
  have h64 := digits_length_le_64 n index hn hu
  simp only [convert_to_sigma, hw, Nat.zero_add]
  rw [to_int_of_lt _ (by omega), int_for_skip m _ _ _ _ (by omega) (by omega)]

end IndexCodecGeneral

/-! ## Index codec: claims on the whole input range -/

section IndexCodecRangeClaims

variable {K : Type} [CommRing K]

theorem mod_pow_div_mod (a n m k : Nat) (hk : k < m) :
    a % n ^ m / n ^ k % n = a / n ^ k % n := by
  have e : n ^ m = n ^ k * n ^ (m - k) := by
    rw [← pow_add]; congr 1; omega
  rw [e, Nat.mod_mul_right_div_self]
  apply Nat.mod_mod_of_dvd
  exact dvd_pow_self n (by omega)

/-- Counterexample to C12 as stated: for `index = 1`, `m = 1` the call returns no
sequence when `n = 1` (the loop never ends, whatever the fuel) nor when `n = 0` (the
first `num % n` divides by zero). -/
theorem convert_to_nal_no_result_small_base :
    (¬ ∃ fuel d, convert_to_nal fuel 1 1 1 = .ok d) ∧
    (¬ ∃ fuel d, convert_to_nal fuel 1 0 1 = .ok d) ∧
    convert_to_nal 1 1 0 1 = .error .divByZero := by
  refine ⟨?_, ?_, rfl⟩
  · rintro ⟨fuel, d, h⟩
    simp [convert_to_nal, nal_while_base_one fuel 1 [] 0 (by decide)] at h
  · rintro ⟨fuel, d, h⟩
    cases fuel with
    | zero => simp [convert_to_nal, nal_while] at h
    | succ f => simp [convert_to_nal, nal_while_base_zero f 1 [] 0 (by decide)] at h

/-- C12 (amended): for all `(index, n, m)` with `n ≥ 2` or `index = 0`,
`convert_to_nal(index, n, m)` returns a sequence of length exactly `m`; `index` units of
loop fuel are enough. -/
theorem convert_to_nal_length (fuel index n m : Nat) (h : 2 ≤ n ∨ index = 0)
    (hf : index ≤ fuel) :
    ∃ d, convert_to_nal fuel index n m = .ok d ∧ d.length = m := by
  by_cases h0 : index = 0
  · subst h0
    exact ⟨resize [] m, by simp [convert_to_nal, nal_while_zero], resize_length [] m⟩
  · have hn : 2 ≤ n := by
      rcases h with h | h
      · exact h
      · exact absurd h h0
    have hlt : index < n ^ fuel :=
      calc index < n ^ index := Nat.lt_pow_self (by omega) index
        _ ≤ n ^ fuel := Nat.pow_le_pow_right (by omega) hf
    exact ⟨_, convert_to_nal_of_two_le fuel index n m hn hlt, resize_length _ m⟩

theorem convert_to_nal_length_witness :
    ((2 ≤ 2 ∨ 9 = 0) ∧ 9 ≤ 9) ∧ ∃ d, convert_to_nal 9 9 2 3 = .ok d ∧ d.length = 3 :=
  ⟨⟨Or.inl (by decide), by decide⟩, convert_to_nal_length 9 9 2 3 (Or.inl (by decide)) (by decide)⟩

/-- C13: every digit produced by `convert_to_nal(index, n, m)` lies in `[0, n)`: for
`n ≥ 1` and every run that returns a sequence `d`, `d` has `m` entries and `d[k] < n`
at every position `k < m`. -/
theorem convert_to_nal_digits_lt (fuel index n m : Nat) (d : List Nat) (hn : 1 ≤ n)
    (hret : convert_to_nal fuel index n m = .ok d) :
    d.length = m ∧ ∀ k, k < m → ∃ v, d[k]? = some v ∧ v < n := by
  unfold convert_to_nal at hret
  split at hret
  · exact absurd hret (by simp)
  · rename_i r j hw
    simp only [Except.ok.injEq] at hret
    subst hret
    have hr := nal_while_lt n hn fuel index [] 0 r j hw (by simp)
    refine ⟨resize_length r m, ?_⟩
    intro k hk
    refine ⟨r.getD k 0, resize_getElem? r m k hk, ?_⟩
    by_cases hkr : k < r.length
    · rw [List.getD_eq_getElem _ _ hkr]
      exact hr _ (List.getElem_mem hkr)
    · rw [List.getD_eq_getElem?_getD, List.getElem?_eq_none (Nat.le_of_not_lt hkr)]
      exact hn

theorem convert_to_nal_digits_lt_witness :
    (1 ≤ 2 ∧ convert_to_nal 4 9 2 3 = .ok [1, 0, 0]) ∧
    ([1, 0, 0].length = 3 ∧ ∀ k, k < 3 → ∃ v, [1, 0, 0][k]? = some v ∧ v < 2) :=
  ⟨⟨by decide, rfl⟩, convert_to_nal_digits_lt 4 9 2 3 [1, 0, 0] (by decide) rfl⟩

/-- C15: for `n ≥ 2` and `index ≥ n ^ m`, `convert_to_nal` drops the digits above
position `m - 1`: with enough fuel (`index < n ^ fuel`) the result has length `m`, holds
the `m` low-order base-`n` digits of `index` (`result[k] = index / n ^ k % n` for
`k < m`) and equals `convert_to_nal(index mod n ^ m, n, m)`, the result for a smaller
index. -/
theorem convert_to_nal_drops_high_digits (fuel index n m : Nat) (hn : 2 ≤ n)
    (h : n ^ m ≤ index) (hf : index < n ^ fuel) :
    ∃ d, convert_to_nal fuel index n m = .ok d ∧ d.length = m ∧
      (∀ k, k < m → d[k]? = some (index / n ^ k % n)) ∧
      index % n ^ m < index ∧
      convert_to_nal fuel (index % n ^ m) n m = .ok d := by
  have hpos : 0 < n ^ m := Nat.pow_pos (by omega)
  have hmod : index % n ^ m < index := Nat.lt_of_lt_of_le (Nat.mod_lt _ hpos) h
  have hentry : ∀ a k, k < m →
      (resize (Nat.digits n a) m)[k]? = some (a / n ^ k % n) := by
    intro a k hk
    rw [resize_getElem? _ m k hk, digits_getD n hn]
  refine ⟨resize (Nat.digits n index) m, convert_to_nal_of_two_le fuel index n m hn hf,
    resize_length _ m, fun k hk => hentry index k hk, hmod, ?_⟩
  have hf2 : index % n ^ m < n ^ fuel := Nat.lt_of_le_of_lt (Nat.mod_le _ _) hf
  rw [convert_to_nal_of_two_le fuel (index % n ^ m) n m hn hf2]
  congr 1
  apply List.ext_getElem?
  intro k
  by_cases hk : k < m
  · rw [hentry _ k hk, hentry _ k hk, mod_pow_div_mod index n m k hk]
  · rw [List.getElem?_eq_none (by rw [resize_length]; omega),
      List.getElem?_eq_none (by rw [resize_length]; omega)]

theorem convert_to_nal_drops_high_digits_witness :
    (2 ≤ 2 ∧ 2 ^ 3 ≤ 13 ∧ 13 < 2 ^ 4) ∧
    ∃ d, convert_to_nal 4 13 2 3 = .ok d ∧ d.length = 3 ∧
      (∀ k, k < 3 → d[k]? = some (13 / 2 ^ k % 2)) ∧
      13 % 2 ^ 3 < 13 ∧
      convert_to_nal 4 (13 % 2 ^ 3) 2 3 = .ok d :=
  ⟨⟨by decide, by decide, by decide⟩,
    convert_to_nal_drops_high_digits 4 13 2 3 (by decide) (by decide) (by decide)⟩

/-- Counterexample to C16 as stated: for `n = 2`, `m = 1`, `index = 2 ≥ n ^ m` the output
has `4 ≠ n * m` entries, one block for each of the two digits of `index`, and is not the
output `[1, 0]` obtained for `index mod n ^ m = 0`. -/
theorem convert_to_sigma_not_truncated_example :
    convert_to_sigma 2 2 2 1 ([] : List Int) = .ok [1, 0, 0, 1] ∧
    ([1, 0, 0, 1] : List Int).length ≠ 2 * 1 ∧
    convert_to_sigma 2 (2 % 2 ^ 1) 2 1 ([] : List Int) = .ok [1, 0] :=
  ⟨rfl, by decide, rfl⟩

/-- C16 (amended): for `2 ≤ n ≤ INT_MAX` and a 64-bit `index ≥ n ^ m`,
`convert_to_sigma` does not truncate: with enough fuel (`index < n ^ fuel`) its output on
an empty vector is one one-hot block per base-`n` digit of `index`, all `L > m` of them,
block `k` selecting the digit `index / n ^ k % n`; its length is `n * L > n * m` and it
is not the output of `convert_to_sigma(index mod n ^ m, n, m)`. -/
theorem convert_to_sigma_keeps_high_digits (fuel index n m : Nat) (hn : 2 ≤ n)
    (hmax : n ≤ INT_MAX) (h : n ^ m ≤ index) (hu : index < 2 ^ 64)
    (hf : index < n ^ fuel) :
    ∃ out : List K, convert_to_sigma fuel index n m [] = .ok out ∧
      out.length = n * (Nat.digits n index).length ∧
      n * m < out.length ∧
      (∀ k i, k < (Nat.digits n index).length → i < n →
        out[k * n + i]? = some (if i = index / n ^ k % n then 1 else 0)) ∧
      convert_to_sigma fuel (index % n ^ m) n m ([] : List K) ≠ .ok out := by
  have hL := lt_digits_length_of_pow_le n m index hn h
  have hLf := digits_length_le_fuel n fuel index hn hf
  have h64 := digits_length_le_64 n index hn hu
  have hrun : convert_to_sigma fuel index n m ([] : List K)
      = .ok ((Nat.digits n index).flatMap (oneHot n)) := by
    rw [convert_to_sigma_of_pow_le fuel index n m [] hn h hf hmax hu, List.nil_append]
  have hlen : ((Nat.digits n index).flatMap (oneHot n) : List K).length
      = n * (Nat.digits n index).length := flatMap_oneHot_length n _
  have hlt : n * m < ((Nat.digits n index).flatMap (oneHot n) : List K).length := by
    rw [hlen]
    exact Nat.mul_lt_mul_of_pos_left hL (by omega)
  refine ⟨_, hrun, hlen, hlt, ?_, ?_⟩
  · intro k i hk hi
    rw [flatMap_oneHot_getElem? n _ k i hk hi, digits_getD n hn]
  · have hpos : 0 < n ^ m := Nat.pow_pos (by omega)
    have hm : m ≤ INT_MAX := by
      unfold INT_MAX
      omega
    rw [convert_to_sigma_of_lt_pow fuel (index % n ^ m) n m [] (Nat.mod_lt _ hpos)
      (by omega) hmax hm]
    intro heq
    simp only [List.nil_append, Except.ok.injEq] at heq
    have hl := congrArg List.length heq
    rw [flatMap_oneHot_length, hlen,
      paddedDigits_length n m _ (Nat.mod_lt _ hpos)] at hl
    have := Nat.mul_lt_mul_of_pos_left hL (show 0 < n by omega)
    omega

theorem convert_to_sigma_keeps_high_digits_witness :
    (2 ≤ 2 ∧ 2 ≤ INT_MAX ∧ 2 ^ 1 ≤ 2 ∧ 2 < 2 ^ 64 ∧ 2 < 2 ^ 2) ∧
    ∃ out : List Int, convert_to_sigma 2 2 2 1 [] = .ok out ∧
      out.length = 2 * (Nat.digits 2 2).length ∧
      2 * 1 < out.length ∧
      (∀ k i, k < (Nat.digits 2 2).length → i < 2 →
        out[k * 2 + i]? = some (if i = 2 / 2 ^ k % 2 then 1 else 0)) ∧
      convert_to_sigma 2 (2 % 2 ^ 1) 2 1 ([] : List Int) ≠ .ok out :=
  ⟨⟨by decide, by decide, by decide, by decide, by decide⟩,
    convert_to_sigma_keeps_high_digits 2 2 2 1 (by decide) (by decide) (by decide)
      (by decide) (by decide)⟩

/-- Counterexample to C17 as stated: for `n = 2`, `m = 1` and `index = 2 ≥ n ^ m` both
functions return a result instead of failing. -/
theorem index_codec_returns_out_of_range_example :
    2 ^ 1 ≤ 2 ∧ convert_to_nal 2 2 2 1 = .ok [0] ∧
    convert_to_sigma 2 2 2 1 ([] : List Int) = .ok [1, 0, 0, 1] :=
  ⟨by decide, rfl, rfl⟩

/-- C17 (amended): the index codec does not validate its bound: for `n ≥ 2` and
`index ≥ n ^ m` (with enough fuel, `index < n ^ fuel`) `convert_to_nal` and
`convert_to_sigma` both return a result and neither ends in an error; the result of
`convert_to_nal` has `m` digits and, for `n ≤ INT_MAX` and a 64-bit `index`, that of
`convert_to_sigma` has more than `n * m` entries. -/
theorem index_codec_no_bound_check (fuel index n m : Nat) (hn : 2 ≤ n)
    (h : n ^ m ≤ index) (hf : index < n ^ fuel) :
    (∃ d, convert_to_nal fuel index n m = .ok d ∧ d.length = m) ∧
    (∃ out : List K, convert_to_sigma fuel index n m [] = .ok out ∧
      (n ≤ INT_MAX → index < 2 ^ 64 → n * m < out.length)) ∧
    (∀ e, convert_to_nal fuel index n m ≠ .error e) ∧
    (∀ e, convert_to_sigma fuel index n m ([] : List K) ≠ .error e) := by
  have hnal := convert_to_nal_of_two_le fuel index n m hn hf
  obtain ⟨out, hsig⟩ := convert_to_sigma_returns fuel index n m ([] : List K) hn hf
  have hL := lt_digits_length_of_pow_le n m index hn h
  refine ⟨⟨_, hnal, resize_length _ m⟩, ⟨out, hsig, ?_⟩, ?_, ?_⟩
  · intro hmax hu
    rw [convert_to_sigma_of_pow_le fuel index n m [] hn h hf hmax hu] at hsig
    simp only [List.nil_append, Except.ok.injEq] at hsig
    rw [← hsig, flatMap_oneHot_length]
    exact Nat.mul_lt_mul_of_pos_left hL (by omega)
  · intro e he
    rw [hnal] at he
    exact absurd he (by simp)
  · intro e he
    rw [hsig] at he
    exact absurd he (by simp)

theorem index_codec_no_bound_check_witness :
    (2 ≤ 2 ∧ 2 ^ 1 ≤ 2 ∧ 2 < 2 ^ 2) ∧
    ((∃ d, convert_to_nal 2 2 2 1 = .ok d ∧ d.length = 1) ∧
    (∃ out : List Int, convert_to_sigma 2 2 2 1 [] = .ok out ∧
      (2 ≤ INT_MAX → 2 < 2 ^ 64 → 2 * 1 < out.length)) ∧
    (∀ e, convert_to_nal 2 2 2 1 ≠ .error e) ∧
    (∀ e, convert_to_sigma 2 2 2 1 ([] : List Int) ≠ .error e)) ∧
    (2 ≤ INT_MAX ∧ 2 < 2 ^ 64) :=
  ⟨⟨by decide, by decide, by decide⟩,
    index_codec_no_bound_check 2 2 2 1 (by decide) (by decide) (by decide),
    by decide, by decide⟩

/-- C19: the digit loops of `convert_to_nal` and `convert_to_sigma` end for every `index`
when `n ≥ 2`, after exactly one iteration per base-`n` digit of `index` (the counter `j`
ends at the number of digits, and less fuel than that does not suffice); they end
whenever `index < n ^ m`, which forces `index = 0` when `n ≤ 1`; for `n = 1` and
`index > 0` they never reach `num == 0`, and for `n = 0` and `index > 0` the first
iteration divides by zero. -/
theorem digit_loops_termination (index n : Nat) (out : List K) :
    (2 ≤ n → ∀ fuel,
      ((Nat.digits n index).length ≤ fuel →
        (∃ r, nal_while n fuel index [] 0 = .ok (r, (Nat.digits n index).length)) ∧
        (∃ o, sigma_while n fuel index out 0 = .ok (o, (Nat.digits n index).length))) ∧
      (fuel < (Nat.digits n index).length →
        nal_while n fuel index [] 0 = .error .outOfFuel ∧
        sigma_while n fuel index out 0 = .error .outOfFuel)) ∧
    (∀ m, index < n ^ m →
      (n ≤ 1 → index = 0) ∧
      ∀ fuel, m ≤ fuel →
        (∃ r j, nal_while n fuel index [] 0 = .ok (r, j)) ∧
        (∃ o j, sigma_while n fuel index out 0 = .ok (o, j))) ∧
    (n = 1 → 0 < index → ∀ fuel,
      nal_while n fuel index [] 0 = .error .outOfFuel ∧
      sigma_while n fuel index out 0 = .error .outOfFuel) ∧
    (n = 0 → 0 < index → ∀ fuel,
      nal_while n (fuel + 1) index [] 0 = .error .divByZero ∧
      sigma_while n (fuel + 1) index out 0 = .error .divByZero) := by
  refine ⟨?_, ?_, ?_, ?_⟩
  · intro hn fuel
    refine ⟨fun hf => ⟨⟨Nat.digits n index, ?_⟩, ?_⟩, fun hf => ⟨?_, ?_⟩⟩
    · simpa using nal_while_digits n hn fuel index [] 0 hf
    · simpa using sigma_while_count n hn fuel index out 0 hf
    · exact nal_while_short n hn fuel index [] 0 hf
    · exact sigma_while_short n hn fuel index out 0 hf
  · intro m hlt
    refine ⟨fun hn => index_eq_zero_of_lt_pow n m index hn hlt, ?_⟩
    intro fuel hf
    by_cases hn : 2 ≤ n
    · have hlen := digits_length_le_of_lt_pow n m index hn hlt
      obtain ⟨o, ho⟩ := sigma_while_count n hn fuel index out 0 (by omega)
      exact ⟨⟨_, _, nal_while_digits n hn fuel index [] 0 (by omega)⟩, ⟨o, _, ho⟩⟩
    · have h0 := index_eq_zero_of_lt_pow n m index (by omega) hlt
      subst h0
      exact ⟨⟨_, _, nal_while_zero n fuel [] 0⟩, ⟨_, _, sigma_while_zero n fuel out 0⟩⟩
  · rintro rfl hpos fuel
    exact ⟨nal_while_base_one fuel index [] 0 hpos, sigma_while_base_one fuel index out 0 hpos⟩
  · rintro rfl hpos fuel
    exact ⟨nal_while_base_zero fuel index [] 0 hpos,
      sigma_while_base_zero fuel index out 0 hpos⟩

end IndexCodecRangeClaims

/-! ## Polynomial factors -/

section PolynomialLemmas

open Polynomial

variable {K : Type} [CommRing K]

end PolynomialLemmas

section PolynomialClaims

open Polynomial

variable {K : Type} [CommRing K]

end PolynomialClaims

/-! ## Commitments -/

section CommitmentClaims

variable {K G : Type} [CommRing K] [AddCommGroup G] [Module K G]

theorem sum_zipWith_smul (h : List G) :
    ∀ e : List K, e.length = h.length →
      (List.zipWith (fun hi ei => ei • hi) h e).sum
        = ∑ i in Finset.range h.length, e.getD i 0 • h.getD i 0 := by
  induction h with
  | nil => intro e _; simp
  | cons g t ih =>
    intro e he
    cases e with
    | nil => simp at he
    | cons k e =>
      have he' : e.length = t.length := by simpa using he
      rw [List.zipWith_cons_cons, List.sum_cons, ih e he', List.length_cons,
        Finset.sum_range_succ', add_comm]
      simp

/-- C6: the single commitment is additively homomorphic: for all group elements `g`, `h`
and scalars `m1`, `m2`, `r1`, `r2`,
`commit(g, m1, h, r1) + commit(g, m2, h, r2) = commit(g, m1 + m2, h, r1 + r2)`. -/
theorem commit_add (g h : G) (m1 m2 r1 r2 : K) :
    commit g m1 h r1 + commit g m2 h r2 = commit g (m1 + m2) h (r1 + r2) := by
  simp only [commit, add_smul]
  abel

/-- C7: the vector `commit` accumulates instead of overwriting: for every group element
`g`, scalar `r`, generator vector `h`, exponent vector `e` with `|e| = |h|` and initial
accumulator value `R`, after `commit(g, h, e, r, result_out)` with `result_out = R` the
accumulator holds `R + g*r + Σ_i h_i*e_i`. -/
theorem commit_vector_accumulates (g : G) (h : List G) (e : List K) (r : K) (R : G)
    (he : e.length = h.length) :
    commit_vector g h e r R
      = R + r • g + ∑ i in Finset.range h.length, e.getD i 0 • h.getD i 0 := by
  rw [commit_vector, get_vector_multiple, sum_zipWith_smul h e he]

theorem commit_vector_accumulates_witness :
    ([(2 : Int), 3].length = [(5 : Int), 7].length) ∧
    commit_vector (11 : Int) [5, 7] [(2 : Int), 3] 4 100
      = 100 + (4 : Int) • (11 : Int)
        + ∑ i in Finset.range [(5 : Int), 7].length,
            [(2 : Int), 3].getD i 0 • [(5 : Int), 7].getD i 0 :=
  ⟨rfl, commit_vector_accumulates (11 : Int) [5, 7] [(2 : Int), 3] 4 100 rfl⟩

/-- C8: for all group elements `g`, `hV`, `hR` and scalars `m`, `v`, `r`,
`double_commit(g, m, hV, v, hR, r)` returns exactly `g*m + hV*v + hR*r`, the
default-constructed group element it starts from being the identity. -/
theorem double_commit_eq (g hV hR : G) (m v r : K) :
    double_commit g m hV v hR r = m • g + v • hV + r • hR := by
  simp [double_commit]

/-- C9: a double commitment with zero second secret collapses to the single commitment:
`double_commit(g, m, hV, 0, h, r) = commit(g, m, h, r)` for all group elements `g`, `h`,
`hV` and scalars `m`, `r`; in particular for `m = 7`, `r = 3`. -/
theorem double_commit_zero_eq_commit (g h hV : G) :
    (∀ m r : K, double_commit g m hV 0 h r = commit g m h r) ∧
    double_commit g (7 : K) hV 0 h 3 = commit g (7 : K) h 3 := by
  have key : ∀ m r : K, double_commit g m hV 0 h r = commit g m h r := by
    intro m r
    simp [double_commit, commit]
  exact ⟨key, key 7 3⟩

end CommitmentClaims

/-! ## Challenges -/

section ChallengeClaims

variable {K G : Type}

/-- Writing an element into a buffer split as `pre ++ rest` at the write position. -/
theorem serialize_at_append (E : ChallengeEnv K G) (elem : G) (pre rest : List Byte)
    (h : (E.serialize elem).length ≤ rest.length) :
    serialize_at E elem (pre ++ rest) pre.length
      = some (pre ++ E.serialize elem ++ rest.drop (E.serialize elem).length,
              pre.length + (E.serialize elem).length) := by
  have h1 : pre.length + (E.serialize elem).length ≤ (pre ++ rest).length := by
    rw [List.length_append]; omega
  simp only [serialize_at, h1, if_true]
  rw [List.take_left' rfl, List.drop_append]

/-- C10: `get_x(A, C, D)` is a function of its three inputs alone: whatever the buffer
holds on entry, the result is the scalar built from the SHA-256 digest of the 102-byte
string `ser(A) || ser(C) || ser(D)` (34 bytes per element, in the order A, C, D), so two
calls on the same inputs give the same scalar. -/
theorem get_x_eq_hash_of_serialization (E : ChallengeEnv K G) (A C D : G)
    (hser : ∀ g, (E.serialize g).length = 34) (hmem : 34 ≤ E.memoryRequired A) :
    (E.serialize A ++ E.serialize C ++ E.serialize D).length = 102 ∧
    (∀ junk, get_x E junk A C D
      = some (E.ofBytes (E.sha256 (E.serialize A ++ E.serialize C ++ E.serialize D)))) ∧
    ∀ junk1 junk2, get_x E junk1 A C D = get_x E junk2 A C D := by
  have hlen : (E.serialize A ++ E.serialize C ++ E.serialize D).length = 102 := by
    simp [hser]
  have key : ∀ junk, get_x E junk A C D
      = some (E.ofBytes (E.sha256 (E.serialize A ++ E.serialize C ++ E.serialize D))) := by
    intro junk
    have hA := serialize_at_append E A [] ((List.range (3 * E.memoryRequired A)).map junk)
      (by simp [hser]; omega)
    have hC := serialize_at_append E C (E.serialize A)
      (((List.range (3 * E.memoryRequired A)).map junk).drop (E.serialize A).length)
      (by simp [hser]; omega)
    have hD := serialize_at_append E D (E.serialize A ++ E.serialize C)
      ((((List.range (3 * E.memoryRequired A)).map junk).drop (E.serialize A).length).drop
        (E.serialize C).length)
      (by simp [hser]; omega)
    simp only [List.nil_append, List.length_nil, Nat.zero_add, List.length_append] at hA hC hD
    simp only [get_x, bind, Option.bind, hA, hC, hD, sha256_of_buffer]
    have hle : 3 * 34 ≤ (E.serialize A ++ E.serialize C ++ E.serialize D ++
        List.drop (E.serialize D).length
          (List.drop (E.serialize C).length
            (List.drop (E.serialize A).length
              (List.map junk (List.range (3 * E.memoryRequired A)))))).length := by
      rw [List.length_append, hlen]; omega
    rw [if_pos hle, List.take_left' hlen]
    rfl
  exact ⟨hlen, key, fun j1 j2 => by rw [key j1, key j2]⟩

theorem get_x_eq_hash_of_serialization_witness :
    ((∀ g, (sampleEnv.serialize g).length = 34) ∧ 34 ≤ sampleEnv.memoryRequired 1) ∧
    ((sampleEnv.serialize 1 ++ sampleEnv.serialize 2 ++ sampleEnv.serialize 3).length = 102 ∧
     (∀ junk, get_x sampleEnv junk 1 2 3
        = some (sampleEnv.ofBytes (sampleEnv.sha256
            (sampleEnv.serialize 1 ++ sampleEnv.serialize 2 ++ sampleEnv.serialize 3)))) ∧
     ∀ junk1 junk2, get_x sampleEnv junk1 1 2 3 = get_x sampleEnv junk2 1 2 3) :=
  ⟨⟨fun _ => List.length_replicate _ _, Nat.le_refl 34⟩,
   get_x_eq_hash_of_serialization sampleEnv 1 2 3
     (fun _ => List.length_replicate _ _) (Nat.le_refl 34)⟩

/-- One pass of the batch loop on a buffer split as `pre ++ rest` at the write position,
when each element takes 34 bytes and at least 102 bytes are left. -/
theorem serialize_proof_append (E : ChallengeEnv K G) (p : SigmaPlusProof G)
    (pre rest : List Byte) (hser : ∀ g, (E.serialize g).length = 34)
    (h : 3 * 34 ≤ rest.length) :
    serialize_proof E p (pre ++ rest, pre.length)
      = some (pre ++ (E.serialize p.A_ ++ E.serialize p.C_ ++ E.serialize p.D_)
                ++ rest.drop (3 * 34), pre.length + 3 * 34) := by
  have hA := serialize_at_append E p.A_ pre rest (by rw [hser]; omega)
  have hC := serialize_at_append E p.C_ (pre ++ E.serialize p.A_)
    (rest.drop (E.serialize p.A_).length) (by simp [hser]; omega)
  have hD := serialize_at_append E p.D_ (pre ++ E.serialize p.A_ ++ E.serialize p.C_)
    ((rest.drop (E.serialize p.A_).length).drop (E.serialize p.C_).length)
    (by simp [hser]; omega)
  simp only [List.length_append] at hA hC hD
  simp only [serialize_proof, bind, Option.bind, hA, hC, hD]
  simp [hser, List.append_assoc, Nat.add_assoc]

/-- C11: the batch challenge of an empty proof sequence is the fixed sentinel:
`get_x([])` sets the result to the scalar `1`, whatever the hash function, the
serialization and the content of memory are. -/
theorem get_x_proofs_nil [One K] (E : ChallengeEnv K G) (junk : Nat → Byte) :
    get_x_proofs E junk ([] : List (SigmaPlusProof G)) = some 1 := by
  simp [get_x_proofs]

/-- C20: the batch challenge agrees with the triple challenge on a single proof: when
every group element serializes to exactly 34 bytes (`memoryRequired()` being at least
that), `get_x([p])` and `get_x(p.A_, p.C_, p.D_)` return the same scalar, the one built
from the digest of `ser(A_) || ser(C_) || ser(D_)`. -/
theorem get_x_proofs_singleton [One K] (E : ChallengeEnv K G) (p : SigmaPlusProof G)
    (hser : ∀ g, (E.serialize g).length = 34) (hmem : 34 ≤ E.memoryRequired p.A_) :
    ∀ junk1 junk2,
      get_x_proofs E junk1 [p] = get_x E junk2 p.A_ p.C_ p.D_ ∧
      get_x_proofs E junk1 [p]
        = some (E.ofBytes (E.sha256
            (E.serialize p.A_ ++ E.serialize p.C_ ++ E.serialize p.D_))) := by
  intro junk1 junk2
  have hx := (get_x_eq_hash_of_serialization E p.A_ p.C_ p.D_ hser hmem).2.1 junk2
  have hb : get_x_proofs E junk1 [p]
      = some (E.ofBytes (E.sha256
          (E.serialize p.A_ ++ E.serialize p.C_ ++ E.serialize p.D_))) := by
    have hs := serialize_proof_append E p [] ((List.range (3 * 1 * 34)).map junk1) hser
      (by simp)
    simp only [List.nil_append, List.length_nil, Nat.zero_add] at hs
    have hlen : (E.serialize p.A_ ++ E.serialize p.C_ ++ E.serialize p.D_).length
        = 3 * 1 * 34 := by simp [hser]
    simp only [get_x_proofs, List.length_singleton, Nat.lt_irrefl, gt_iff_lt,
      Nat.zero_lt_one, if_true, List.foldlM_cons, List.foldlM_nil, bind, Option.bind, hs,
      pure, sha256_of_buffer]
    rw [if_pos (by rw [List.length_append, hlen]; omega), List.take_left' hlen]
  exact ⟨by rw [hb, hx], hb⟩

theorem get_x_proofs_singleton_witness :
    ((∀ g, (sampleEnv.serialize g).length = 34) ∧
      34 ≤ sampleEnv.memoryRequired (SigmaPlusProof.mk 1 2 3).A_) ∧
    ∀ junk1 junk2,
      get_x_proofs sampleEnv junk1 [SigmaPlusProof.mk 1 2 3]
        = get_x sampleEnv junk2 (SigmaPlusProof.mk 1 2 3).A_ (SigmaPlusProof.mk 1 2 3).C_
            (SigmaPlusProof.mk 1 2 3).D_ ∧
      get_x_proofs sampleEnv junk1 [SigmaPlusProof.mk 1 2 3]
        = some (sampleEnv.ofBytes (sampleEnv.sha256
            (sampleEnv.serialize (SigmaPlusProof.mk 1 2 3).A_
              ++ sampleEnv.serialize (SigmaPlusProof.mk 1 2 3).C_
              ++ sampleEnv.serialize (SigmaPlusProof.mk 1 2 3).D_))) :=
  ⟨⟨fun _ => List.length_replicate _ _, Nat.le_refl 34⟩,
   get_x_proofs_singleton sampleEnv (SigmaPlusProof.mk 1 2 3)
     (fun _ => List.length_replicate _ _) (Nat.le_refl 34)⟩

end ChallengeClaims

end nextgen
